import Mathlib

/-!
Verification of the schema-derivation core of kaiwadb-python
(`kaiwadb/schema_mapping.py`): the type introspector `map_to_type` and the
table assembler `map_documents_to_tables`, shallowly embedded in Lean.
-/

namespace KaiwaDB

/-- The closed catalog of primitive kinds (`PrimitiveType` together with the
`PRIMITIVES` dictionary of `map_to_type`): bool, int, float, str,
datetime, date, time, ObjectId, UUID. -/
inductive Prim where
  | bool | int | float | str | datetime | date | time | oid | uuid
deriving DecidableEq, Repr

/-- A Python type annotation as `map_to_type` observes it through
`get_origin` / `get_args` / `issubclass`:

* `noneT` — `NoneType`;
* `prim p` — one of the nine catalog scalar types;
* `union args` — a `Union[...]` / `X | Y` annotation; CPython flattens
  nested unions and deduplicates members at construction, so the stored
  argument tuple of any annotation built by the `|` operator is flat and
  duplicate-free (that invariant is `wfB` below, it is not assumed here);
* `listOf args` — a parameterized `list[...]` with its argument tuple;
* `enumT name members` — an `Enum` subclass with its members in declaration
  order, each a (symbolic name, literal value) pair;
* `model name fields` — a pydantic `BaseModel` subclass with its
  `model_fields` in declaration order, each field a tuple
  (declared name, alias, description, annotation), the annotation possibly
  absent;
* `otherClass name` — any other plain class (bare `list`, `dict`, a custom
  class, ...): `get_origin` is `None` for it, it is not in the primitive
  catalog, and it is neither an `Enum` nor a `BaseModel` subclass. -/
inductive PyType where
  | noneT : PyType
  | prim (p : Prim) : PyType
  | union (args : List PyType) : PyType
  | listOf (args : List PyType) : PyType
  | enumT (name : String) (members : List (String × String)) : PyType
  | model (name : String)
      (fields : List (String × Option String × Option String × Option PyType)) : PyType
  | otherClass (name : String) : PyType

/-- Membership test for the null marker: `a is NoneType` / `NoneType in args`. -/
def isNoneT : PyType → Bool
  | .noneT => true
  | .prim _ => false
  | .union _ => false
  | .listOf _ => false
  | .enumT _ _ => false
  | .model _ _ => false
  | .otherClass _ => false

/-- Whether an annotation is a union shape (`get_origin` in `[Union, UnionType]`). -/
def isUnionT : PyType → Bool
  | .noneT => false
  | .prim _ => false
  | .union _ => true
  | .listOf _ => false
  | .enumT _ _ => false
  | .model _ _ => false
  | .otherClass _ => false

/-- A variant of a derived enum node (`Variant` of `kaiwadb/models/instance.py`).
Modelled from the spec: "each a literal `value` plus an optional `alias`". -/
structure Variant where
  value : String
  «alias» : Option String
deriving DecidableEq, Repr

/-- A derived schema node.  Modelled from the spec: the tagged-union schema
node model of `kaiwadb/models/instance.py` (`PrimitiveField`, `ArrayField`,
`UnionField`, `EnumField`, `ObjectField`), each variant carrying `alias`,
`description` and `optional`, plus its variant-specific payload.  An object's
`properties` dict is represented as an association list in insertion order. -/
inductive Node where
  | primitive («alias» description : Option String) (optional : Bool) (type : Prim) : Node
  | array («alias» description : Option String) (optional : Bool) (item : Node) : Node
  | unionN («alias» description : Option String) (optional : Bool) (types : List Node) : Node
  | enumN («alias» description : Option String) (optional : Bool)
      (name : String) (variants : List Variant) : Node
  | object («alias» description : Option String) (optional : Bool)
      (properties : List (String × Node)) : Node

/-- The `alias` attribute common to every node variant. -/
def nodeAlias : Node → Option String
  | .primitive a _ _ _ => a
  | .array a _ _ _ => a
  | .unionN a _ _ _ => a
  | .enumN a _ _ _ _ => a
  | .object a _ _ _ => a

/-- The `description` attribute common to every node variant. -/
def nodeDescription : Node → Option String
  | .primitive _ d _ _ => d
  | .array _ d _ _ => d
  | .unionN _ d _ _ => d
  | .enumN _ d _ _ _ => d
  | .object _ d _ _ => d

/-- The `optional` attribute common to every node variant. -/
def nodeOptional : Node → Bool
  | .primitive _ _ o _ => o
  | .array _ _ o _ => o
  | .unionN _ _ o _ => o
  | .enumN _ _ o _ _ => o
  | .object _ _ o _ => o

/-- The `properties` attribute of an object node (empty for other variants). -/
def nodeProps : Node → List (String × Node)
  | .object _ _ _ ps => ps
  | _ => []

/-- Replace a node's `optional` attribute. -/
def setOptional (b : Bool) : Node → Node
  | .primitive a d _ t => .primitive a d b t
  | .array a d _ i => .array a d b i
  | .unionN a d _ ts => .unionN a d b ts
  | .enumN a d _ n vs => .enumN a d b n vs
  | .object a d _ ps => .object a d b ps

/-- Python truthiness fallback `x or y` on an optional string: `None` and the
empty string both fall through to the fallback. -/
def pyOr (x : Option String) (y : String) : String :=
  match x with
  | some s => if s = "" then y else s
  | none => y

/-- Insert into a Python dict modelled as an association list: an existing
key keeps its position and gets the new value, a fresh key is appended. -/
def dictInsert (m : List (String × Node)) (k : String) (v : Node) :
    List (String × Node) :=
  if m.any (fun p => p.1 = k) then
    m.map (fun p => if p.1 = k then (k, v) else p)
  else
    m ++ [(k, v)]

/-- Build a Python dict from key/value pairs in evaluation order (the
semantics of a dict comprehension: later duplicate keys overwrite). -/
def dictOf (kvs : List (String × Node)) : List (String × Node) :=
  kvs.foldl (fun m kv => dictInsert m kv.1 kv.2) []

/-- Dict lookup. -/
def dictGet (k : String) (m : List (String × Node)) : Option Node :=
  (m.find? (fun p => p.1 = k)).map (·.2)

mutual

/-- Python's `str()` rendering of an annotation, as interpolated into the
`NotImplementedError` message by the f-string on line 116 of
`schema_mapping.py`. -/
def pyName : PyType → String
  | .noneT => "<class 'NoneType'>"
  | .prim p =>
      match p with
      | .bool => "<class 'bool'>"
      | .int => "<class 'int'>"
      | .float => "<class 'float'>"
      | .str => "<class 'str'>"
      | .datetime => "<class 'datetime.datetime'>"
      | .date => "<class 'datetime.date'>"
      | .time => "<class 'datetime.time'>"
      | .oid => "<class 'kaiwadb.types.object_id.ObjectId'>"
      | .uuid => "<class 'uuid.UUID'>"
  | .union args => String.intercalate " | " (pyNameList args)
  | .listOf args => "list[" ++ String.intercalate ", " (pyNameList args) ++ "]"
  | .enumT n _ => "<enum '" ++ n ++ "'>"
  | .model n _ => "<class '" ++ n ++ "'>"
  | .otherClass n => "<class '" ++ n ++ "'>"

/-- Rendering `pyName` over a list of annotations. -/
def pyNameList : List PyType → List String
  | [] => []
  | a :: as => pyName a :: pyNameList as

end

mutual

/-- CPython representation invariant on type annotations: a union annotation
constructed by `typing.Union[...]` or the `|` operator always stores at least
two members, none of which is itself a union (nested unions are flattened at
construction).  Annotations reachable from it satisfy the same invariant. -/
def wfB : PyType → Bool
  | .noneT => true
  | .prim _ => true
  | .union args =>
      decide (args.length ≥ 2) && args.all (fun a => !isUnionT a) && wfBList args
  | .listOf args => wfBList args
  | .enumT _ _ => true
  | .model _ fields => wfBFields fields
  | .otherClass _ => true

/-- Invariant `wfB` over a list of annotations. -/
def wfBList : List PyType → Bool
  | [] => true
  | a :: as => wfB a && wfBList as

/-- Invariant `wfB` over the annotations of a model's fields. -/
def wfBFields : List (String × Option String × Option String × Option PyType) → Bool
  | [] => true
  | (_, _, _, none) :: rest => wfBFields rest
  | (_, _, _, some t) :: rest => wfB t && wfBFields rest

end

/-- CPython's construction of the annotation `T | None`: nested unions are
flattened and duplicate members are dropped (keeping first positions), and
`None | None` collapses to `NoneType` itself.  Since a union annotation never
stores duplicates, adjoining `NoneType` only has to check whether `NoneType`
is already a member. -/
def pyUnionWithNone : PyType → PyType
  | .noneT => .noneT
  | .union ts => .union (if ts.any isNoneT then ts else ts ++ [.noneT])
  | t => .union [t, .noneT]

/-- A document definition as `map_documents_to_tables` consumes it.
Modelled from the spec: the `Document` base class (`kaiwadb/document.py`,
not part of the analysed sources) is a pydantic `BaseModel` subclass
exposing the optional declared names `__collection__` and `__table__`, the
class name `__name__`, and its `model_fields`. -/
structure PyDoc where
  collection : Option String
  table : Option String
  name : String
  fields : List (String × Option String × Option String × Option PyType)

/-- The annotation shape under which `map_to_type` sees a document class:
a `BaseModel` subclass with the document's name and fields. -/
def PyDoc.asType (d : PyDoc) : PyType := .model d.name d.fields

/-- A derived table.  Modelled from the spec: `Table` of
`kaiwadb/models/instance.py` carries `name`, `alias` and `fields`. -/
structure Table where
  name : String
  «alias» : String
  fields : List (String × Node)


mutual

/-- Shallow embedding of `map_to_type` (`schema_mapping.py`, lines 49-116).
Dispatch order as in the source: union origin, list origin with exactly one
parameter, primitive catalog, `Enum` subclass, `BaseModel` subclass, and
otherwise `raise NotImplementedError(f"KaiwaDB does not support {annotation}")`
(modelled as `Except.error`).  In the union branch the walrus
`optional := NoneType in args` discards the caller-supplied flag, `args` is
the already-flat, already-deduplicated argument tuple (iterated in stored
order, standing for the source's `set`), and a single member left after
removing `NoneType` is recursed into with the same alias/description.  In
the `BaseModel` branch each annotated field is recursively derived with the
field's declared name as alias and the field's description, and keyed by
`field.alias or name`. -/
def mapToType (t : PyType) (al descr : Option String) (optional : Bool) :
    Except String Node :=
  match t with
  | .union args =>
      let opt := args.any isNoneT
      match h : args.filter (fun a => !isNoneT a) with
      | [a] => mapToType a al descr opt
      | rest =>
          match mapTypes rest with
          | .error e => .error e
          | .ok ts => .ok (.unionN al descr opt ts)
  | .listOf args =>
      match h : args with
      | [a] =>
          match mapToType a none none false with
          | .error e => .error e
          | .ok item => .ok (.array al descr optional item)
      | _ => .error ("KaiwaDB does not support " ++ pyName (.listOf args))
  | .prim p => .ok (.primitive al descr optional p)
  | .enumT n members =>
      .ok (.enumN al descr optional n
        (members.map (fun m =>
          ⟨m.2, if m.1 ≠ m.2 then some m.1 else none⟩)))
  | .model _ fields =>
      match mapFields fields with
      | .error e => .error e
      | .ok kvs => .ok (.object al descr optional (dictOf kvs))
  | t => .error ("KaiwaDB does not support " ++ pyName t)
termination_by sizeOf t
decreasing_by
  · have ha : a ∈ args.filter (fun a => !isNoneT a) := by
      rw [h]; exact List.mem_singleton_self a
    have := List.sizeOf_lt_of_mem ((List.mem_filter.1 ha).1)
    simp only [PyType.union.sizeOf_spec]; omega
  · have hfle : ∀ l : List PyType, sizeOf (l.filter (fun a => !isNoneT a)) ≤ sizeOf l := by
      intro l
      induction l with
      | nil => simp
      | cons x xs ih =>
        simp only [List.filter_cons]
        split <;> simp only [List.cons.sizeOf_spec] <;> omega
    have hfle2 := hfle args
    rw [h] at hfle2
    simp only [PyType.union.sizeOf_spec]; omega
  · subst h
    simp only [PyType.listOf.sizeOf_spec, List.cons.sizeOf_spec, List.nil.sizeOf_spec]
    omega
  · simp only [PyType.model.sizeOf_spec]; omega

/-- Derivation of the members of a union, each with no alias, description
or optional of its own (the comprehension `[map_to_type(a) for a in args]`). -/
def mapTypes : List PyType → Except String (List Node)
  | [] => .ok []
  | a :: as =>
      match mapToType a none none false with
      | .error e => .error e
      | .ok n =>
          match mapTypes as with
          | .error e => .error e
          | .ok ns => .ok (n :: ns)
termination_by ts => sizeOf ts
decreasing_by
  · simp only [List.cons.sizeOf_spec]; omega
  · simp only [List.cons.sizeOf_spec]; omega

/-- The key/value pairs of the `properties` dict comprehension, in field
declaration order: fields without an annotation are skipped, the key is
`field.alias or name`, the value is `map_to_type(field.annotation, name,
field.description)`. -/
def mapFields :
    List (String × Option String × Option String × Option PyType) →
    Except String (List (String × Node))
  | [] => .ok []
  | (n, al, dsc, ant) :: rest =>
      match ant with
      | none => mapFields rest
      | some t =>
          match mapToType t (some n) dsc false with
          | .error e => .error e
          | .ok nd =>
              match mapFields rest with
              | .error e => .error e
              | .ok kvs => .ok ((pyOr al n, nd) :: kvs)
termination_by fs => sizeOf fs
decreasing_by
  · simp only [List.cons.sizeOf_spec]; omega
  · simp only [List.cons.sizeOf_spec, Prod.mk.sizeOf_spec, Option.some.sizeOf_spec]
    omega
  · simp only [List.cons.sizeOf_spec]; omega

end

/-- Shallow embedding of `map_documents_to_tables` (`schema_mapping.py`,
lines 23-31): one table per document in input order, its name the Python
truthiness chain `doc.__collection__ or doc.__table__ or doc.__name__`, its
alias the document's class name, and its fields the `properties` of
`map_to_type(doc)` (a top-level call: no alias, description or optional). -/
def mapDocumentsToTables : List PyDoc → Except String (List Table)
  | [] => .ok []
  | d :: ds =>
      match mapToType d.asType none none false with
      | .error e => .error e
      | .ok n =>
          match mapDocumentsToTables ds with
          | .error e => .error e
          | .ok ts =>
              .ok ({ name := pyOr d.collection (pyOr d.table d.name),
                     «alias» := d.name,
                     fields := nodeProps n } :: ts)


/-- Map a function over the node of a successful derivation, keeping
errors unchanged. -/
def exceptMap (f : Node → Node) : Except String Node → Except String Node
  | .error e => .error e
  | .ok n => .ok (f n)

/-- The recognized shapes of the introspector's dispatch: union,
single-element-parameter list, catalog primitive, enumeration, structured
type.  `NoneType`, any other plain class, and a parameterized `list` with
zero or several element-type parameters match none of them. -/
def recognizedShape : PyType → Bool
  | .noneT => false
  | .prim _ => true
  | .union _ => true
  | .listOf args => decide (args.length = 1)
  | .enumT _ _ => true
  | .model _ _ => true
  | .otherClass _ => false

/-- The enum-variant derivation exactly as the claim words it: one variant
per member in declaration order, its value the member's literal value, its
alias the symbolic member name exactly when that differs from the value,
else absent. -/
def specEnumVariants (members : List (String × String)) : List Variant :=
  members.map (fun m => ⟨m.2, if m.1 = m.2 then none else some m.1⟩)

mutual

/-- The structural invariant of claim C8: no union node anywhere in a
schema tree has exactly one child. -/
def noSingletonUnion : Node → Bool
  | .primitive _ _ _ _ => true
  | .array _ _ _ item => noSingletonUnion item
  | .unionN _ _ _ ts => decide (ts.length ≠ 1) && noSingletonUnionList ts
  | .enumN _ _ _ _ _ => true
  | .object _ _ _ props => noSingletonUnionProps props

/-- Invariant `noSingletonUnion` over a list of nodes. -/
def noSingletonUnionList : List Node → Bool
  | [] => true
  | n :: ns => noSingletonUnion n && noSingletonUnionList ns

/-- Invariant `noSingletonUnion` over the values of a properties mapping. -/
def noSingletonUnionProps : List (String × Node) → Bool
  | [] => true
  | (_, n) :: ps => noSingletonUnion n && noSingletonUnionProps ps

end

/-- Unfolding of the union branch when exactly one member survives the
removal of `NoneType`: recurse into it with the same alias/description and
the recomputed optional flag. -/
theorem mapToType_union_single (args : List PyType) (a : PyType)
    (al descr : Option String) (o : Bool)
    (h : args.filter (fun x => !isNoneT x) = [a]) :
    mapToType (.union args) al descr o = mapToType a al descr (args.any isNoneT) := by
  rw [mapToType.eq_1]
  split
  · next a' heq =>
    rw [h] at heq
    injection heq with h1
    subst h1
    rfl
  · next hne =>
    exact absurd h (hne a)

/-- Unfolding of the union branch when the member count after removal of
`NoneType` is not one: a `Union` node over the independent derivations. -/
theorem mapToType_union_multi (args : List PyType) (al descr : Option String) (o : Bool)
    (h : ∀ a, args.filter (fun x => !isNoneT x) ≠ [a]) :
    mapToType (.union args) al descr o =
      match mapTypes (args.filter (fun x => !isNoneT x)) with
      | .error e => .error e
      | .ok ts => .ok (.unionN al descr (args.any isNoneT) ts) := by
  rw [mapToType.eq_1]
  split
  · next a' heq => exact absurd heq (h a')
  · rfl

/-- Non-dependent evaluation form of the union branch, convenient for
rewriting: test the length of the filtered member list. -/
theorem mapToType_union_eq (args : List PyType) (al descr : Option String) (o : Bool) :
    mapToType (.union args) al descr o =
      if (args.filter (fun a => !isNoneT a)).length = 1 then
        mapToType ((args.filter (fun a => !isNoneT a)).headD .noneT) al descr
          (args.any isNoneT)
      else
        match mapTypes (args.filter (fun a => !isNoneT a)) with
        | .error e => .error e
        | .ok ts => .ok (.unionN al descr (args.any isNoneT) ts) := by
  rcases hf : args.filter (fun a => !isNoneT a) with _ | ⟨a, rest⟩
  · rw [mapToType_union_multi args al descr o (by simp [hf])]
    rw [hf]
    simp
  · rcases rest with _ | ⟨b, r⟩
    · rw [mapToType_union_single args a al descr o hf]
      simp [hf]
    · rw [mapToType_union_multi args al descr o (by simp [hf])]
      rw [hf]
      simp

/-- Unfolding of the list branch with exactly one element-type parameter. -/
theorem mapToType_listOf_single (a : PyType) (al descr : Option String) (o : Bool) :
    mapToType (.listOf [a]) al descr o =
      match mapToType a none none false with
      | .error e => .error e
      | .ok item => .ok (.array al descr o item) :=
  mapToType.eq_2 al descr o a

/-- Unfolding of the list branch with zero or several element-type
parameters: the annotation falls through every recognized branch and the
derivation fails naming it. -/
theorem mapToType_listOf_bad (args : List PyType) (al descr : Option String) (o : Bool)
    (h : ∀ a, args ≠ [a]) :
    mapToType (.listOf args) al descr o =
      .error ("KaiwaDB does not support " ++ pyName (.listOf args)) :=
  mapToType.eq_3 al descr o args (fun a ha => h a ha)

/-- Unfolding of the primitive branch of the introspector. -/
theorem mapToType_prim (p : Prim) (al descr : Option String) (o : Bool) :
    mapToType (.prim p) al descr o = .ok (.primitive al descr o p) := by
  rw [mapToType]

/-- Unfolding of the enum branch of the introspector. -/
theorem mapToType_enumT (n : String) (members : List (String × String))
    (al descr : Option String) (o : Bool) :
    mapToType (.enumT n members) al descr o =
      .ok (.enumN al descr o n
        (members.map (fun m => ⟨m.2, if m.1 ≠ m.2 then some m.1 else none⟩))) := by
  rw [mapToType]

/-- Unfolding of the model branch of the introspector. -/
theorem mapToType_model (n : String)
    (fields : List (String × Option String × Option String × Option PyType))
    (al descr : Option String) (o : Bool) :
    mapToType (.model n fields) al descr o =
      match mapFields fields with
      | .error e => .error e
      | .ok kvs => .ok (.object al descr o (dictOf kvs)) := by
  rw [mapToType]

/-- Unfolding of the introspector at `NoneType`. -/
theorem mapToType_noneT (al descr : Option String) (o : Bool) :
    mapToType .noneT al descr o =
      .error ("KaiwaDB does not support " ++ pyName .noneT) :=
  mapToType.eq_7 .noneT al descr o (fun _ h => nomatch h) (fun _ h => nomatch h)
    (fun _ h => nomatch h) (fun _ _ h => nomatch h) (fun _ _ h => nomatch h)

/-- Unfolding of the introspector at an unrecognized plain class. -/
theorem mapToType_otherClass (n : String) (al descr : Option String) (o : Bool) :
    mapToType (.otherClass n) al descr o =
      .error ("KaiwaDB does not support " ++ pyName (.otherClass n)) :=
  mapToType.eq_7 (.otherClass n) al descr o (fun _ h => nomatch h) (fun _ h => nomatch h)
    (fun _ h => nomatch h) (fun _ _ h => nomatch h) (fun _ _ h => nomatch h)

/-- Evaluation of the null-marker test at the null marker. -/
theorem isNoneT_noneT : isNoneT .noneT = true := rfl

/-- On every non-union shape the introspector writes the caller-supplied
`optional` flag into the produced node unchanged. -/
theorem mapToType_ok_optional_nonunion (t : PyType) (al d : Option String)
    (o : Bool) (n : Node) (hu : isUnionT t = false)
    (hok : mapToType t al d o = .ok n) : nodeOptional n = o := by
  cases t with
  | noneT => rw [mapToType_noneT] at hok; cases hok
  | prim p =>
    rw [mapToType_prim] at hok
    cases hok
    rfl
  | union args => cases hu
  | listOf args =>
    rcases args with _ | ⟨a, rest⟩
    · rw [mapToType_listOf_bad _ _ _ _ (by intro x hx; cases hx)] at hok; cases hok
    · rcases rest with _ | ⟨b, r⟩
      · rw [mapToType_listOf_single] at hok
        split at hok
        · cases hok
        · cases hok; rfl
      · rw [mapToType_listOf_bad _ _ _ _ (by intro x hx; cases hx)] at hok; cases hok
  | enumT nm members =>
    rw [mapToType_enumT] at hok
    cases hok
    rfl
  | model nm fields =>
    rw [mapToType_model] at hok
    split at hok
    · cases hok
    · cases hok; rfl
  | otherClass nm => rw [mapToType_otherClass] at hok; cases hok

/-- On every non-union shape, forcing the `optional` flag of the derivation's
result to `b` is the same as deriving with `optional = b` in the first
place (errors are unaffected). -/
theorem exceptMap_setOptional_nonunion (t : PyType) (al d : Option String)
    (o b : Bool) (hu : isUnionT t = false) :
    exceptMap (setOptional b) (mapToType t al d o) = mapToType t al d b := by
  cases t with
  | noneT => rw [mapToType_noneT, mapToType_noneT]; rfl
  | prim p => rw [mapToType_prim, mapToType_prim]; rfl
  | union args => cases hu
  | listOf args =>
    rcases args with _ | ⟨a, rest⟩
    · rw [mapToType_listOf_bad _ _ _ _ (by intro x hx; cases hx),
        mapToType_listOf_bad _ _ _ _ (by intro x hx; cases hx)]
      rfl
    · rcases rest with _ | ⟨b', r⟩
      · rw [mapToType_listOf_single, mapToType_listOf_single]
        rcases mapToType a none none false with e | item <;> rfl
      · rw [mapToType_listOf_bad _ _ _ _ (by intro x hx; cases hx),
          mapToType_listOf_bad _ _ _ _ (by intro x hx; cases hx)]
        rfl
  | enumT nm members => rw [mapToType_enumT, mapToType_enumT]; rfl
  | model nm fields =>
    rw [mapToType_model, mapToType_model]
    rcases mapFields fields with e | kvs <;> rfl
  | otherClass nm => rw [mapToType_otherClass, mapToType_otherClass]; rfl

/-- A successful batch derivation of union members yields exactly one node
per member, each the derivation of some member with no alias, description
or optional of its own. -/
theorem mapTypes_ok (l : List PyType) (ns : List Node)
    (hok : mapTypes l = .ok ns) :
    ns.length = l.length ∧ ∀ n ∈ ns, ∃ a ∈ l, mapToType a none none false = .ok n := by
  induction l generalizing ns with
  | nil =>
    simp only [mapTypes] at hok
    cases hok
    simp
  | cons a as ih =>
    simp only [mapTypes] at hok
    split at hok
    · cases hok
    · next n hn =>
      split at hok
      · cases hok
      · next ns' hns =>
        cases hok
        obtain ⟨hlen, hmem⟩ := ih ns' hns
        refine ⟨by simp [hlen], ?_⟩
        intro m hm
        rcases List.mem_cons.1 hm with rfl | hm'
        · exact ⟨a, List.mem_cons_self a as, hn⟩
        · obtain ⟨b, hb, hbok⟩ := hmem m hm'
          exact ⟨b, List.mem_cons_of_mem a hb, hbok⟩

/-- Every key/value pair produced by a successful field traversal comes from
an annotated field: the key is `field.alias or name`, the value that field's
derivation with the declared name as alias. -/
theorem mapFields_ok_mem
    (fs : List (String × Option String × Option String × Option PyType))
    (kvs : List (String × Node)) (hok : mapFields fs = .ok kvs) :
    ∀ kv ∈ kvs, ∃ f ∈ fs, ∃ t, f.2.2.2 = some t ∧ kv.1 = pyOr f.2.1 f.1 ∧
      mapToType t (some f.1) f.2.2.1 false = .ok kv.2 := by
  induction fs generalizing kvs with
  | nil =>
    simp only [mapFields] at hok
    cases hok
    simp
  | cons f rest ih =>
    obtain ⟨nm, al, dsc, ant⟩ := f
    cases ant with
    | none =>
      simp only [mapFields] at hok
      intro kv hkv
      obtain ⟨g, hg, t, ht, hk, hv⟩ := ih kvs hok kv hkv
      exact ⟨g, List.mem_cons_of_mem _ hg, t, ht, hk, hv⟩
    | some t =>
      simp only [mapFields] at hok
      split at hok
      · cases hok
      · next nd hnd =>
        split at hok
        · cases hok
        · next kvs' hkvs =>
          cases hok
          intro kv hkv
          rcases List.mem_cons.1 hkv with rfl | hkv'
          · exact ⟨(nm, al, dsc, some t), List.mem_cons_self _ _, t, rfl, rfl, hnd⟩
          · obtain ⟨g, hg, t', ht', hk, hv⟩ := ih kvs' hkvs kv hkv'
            exact ⟨g, List.mem_cons_of_mem _ hg, t', ht', hk, hv⟩

/-- A successful field traversal derived every annotated field. -/
theorem mapFields_ok_forall
    (fs : List (String × Option String × Option String × Option PyType))
    (kvs : List (String × Node)) (hok : mapFields fs = .ok kvs) :
    ∀ f ∈ fs, ∀ t, f.2.2.2 = some t →
      ∃ nd, mapToType t (some f.1) f.2.2.1 false = .ok nd := by
  induction fs generalizing kvs with
  | nil => simp
  | cons f rest ih =>
    obtain ⟨nm, al, dsc, ant⟩ := f
    cases ant with
    | none =>
      simp only [mapFields] at hok
      intro g hg t ht
      rcases List.mem_cons.1 hg with rfl | hg'
      · cases ht
      · exact ih kvs hok g hg' t ht
    | some t0 =>
      simp only [mapFields] at hok
      split at hok
      · cases hok
      · next nd hnd =>
        split at hok
        · cases hok
        · next kvs' hkvs =>
          intro g hg t ht
          rcases List.mem_cons.1 hg with rfl | hg'
          · cases ht
            exact ⟨nd, hnd⟩
          · exact ih kvs' hkvs g hg' t ht

/-- If every annotated field derives successfully, the field traversal
succeeds, and its key/value pairs correspond one-to-one, in declaration
order, to the annotated fields. -/
theorem mapFields_forall₂
    (fs : List (String × Option String × Option String × Option PyType))
    (hs : ∀ f ∈ fs, ∀ t, f.2.2.2 = some t →
      ∃ nd, mapToType t (some f.1) f.2.2.1 false = .ok nd) :
    ∃ kvs, mapFields fs = .ok kvs ∧
      List.Forall₂
        (fun f kv => ∃ t, f.2.2.2 = some t ∧ kv.1 = pyOr f.2.1 f.1 ∧
          mapToType t (some f.1) f.2.2.1 false = .ok kv.2)
        (fs.filter (fun f => f.2.2.2.isSome)) kvs := by
  induction fs with
  | nil => exact ⟨[], by simp [mapFields], by simp⟩
  | cons f rest ih =>
    obtain ⟨nm, al, dsc, ant⟩ := f
    obtain ⟨kvs, hkvs, hrel⟩ := ih (fun g hg => hs g (List.mem_cons_of_mem _ hg))
    cases ant with
    | none =>
      refine ⟨kvs, ?_, ?_⟩
      · simp only [mapFields]
        exact hkvs
      · simpa using hrel
    | some t =>
      obtain ⟨nd, hnd⟩ := hs (nm, al, dsc, some t) (List.mem_cons_self _ _) t rfl
      refine ⟨(pyOr al nm, nd) :: kvs, ?_, ?_⟩
      · simp only [mapFields, hnd, hkvs]
      · have hfc : ((nm, al, dsc, some t) :: rest).filter (fun f => f.2.2.2.isSome)
            = (nm, al, dsc, some t) :: rest.filter (fun f => f.2.2.2.isSome) := by
          simp [List.filter_cons]
        rw [hfc]
        exact List.Forall₂.cons ⟨t, rfl, rfl, hnd⟩ hrel

/-- Elements of a dict insert are the inserted pair or untouched elements. -/
theorem dictInsert_mem (m : List (String × Node)) (k : String) (v : Node)
    (p : String × Node) (hp : p ∈ dictInsert m k v) : p = (k, v) ∨ p ∈ m := by
  unfold dictInsert at hp
  split at hp
  · obtain ⟨q, hq, hpq⟩ := List.mem_map.1 hp
    by_cases hqk : q.1 = k
    · left
      rw [if_pos hqk] at hpq
      exact hpq.symm
    · right
      rw [if_neg hqk] at hpq
      exact hpq ▸ hq
  · rcases List.mem_append.1 hp with h | h
    · exact Or.inr h
    · exact Or.inl (by simpa using h)

/-- Every entry of a built dict is one of the inserted key/value pairs. -/
theorem dictOf_mem (kvs : List (String × Node)) (p : String × Node)
    (hp : p ∈ dictOf kvs) : p ∈ kvs := by
  suffices h : ∀ (kvs m : List (String × Node)) (p : String × Node),
      p ∈ kvs.foldl (fun m kv => dictInsert m kv.1 kv.2) m → p ∈ m ∨ p ∈ kvs by
    rcases h kvs [] p hp with hm | hk
    · cases hm
    · exact hk
  intro kvs
  induction kvs with
  | nil => intro m p hp; exact Or.inl hp
  | cons kv rest ih =>
    intro m p hp
    rcases ih (dictInsert m kv.1 kv.2) p hp with hm | hk
    · rcases dictInsert_mem m kv.1 kv.2 p hm with rfl | hm'
      · exact Or.inr (List.mem_cons_self _ _)
      · exact Or.inl hm'
    · exact Or.inr (List.mem_cons_of_mem _ hk)

/-- When the keys are pairwise distinct, building the dict keeps the pairs
exactly as given, in order. -/
theorem dictOf_eq_self (kvs : List (String × Node))
    (hnd : (kvs.map Prod.fst).Nodup) : dictOf kvs = kvs := by
  suffices h : ∀ (kvs m : List (String × Node)),
      (∀ kv ∈ kvs, ∀ q ∈ m, q.1 ≠ kv.1) → (kvs.map Prod.fst).Nodup →
      kvs.foldl (fun m kv => dictInsert m kv.1 kv.2) m = m ++ kvs by
    simpa using h kvs [] (by simp) hnd
  intro kvs
  induction kvs with
  | nil => intro m _ _; simp [dictOf]
  | cons kv rest ih =>
    intro m hfresh hnd'
    have h0 : List.map Prod.fst (kv :: rest) = kv.1 :: List.map Prod.fst rest := rfl
    rw [h0, List.nodup_cons] at hnd'
    obtain ⟨hknotin, hndrest⟩ := hnd'
    have hkm : m.any (fun p => p.1 = kv.1) = false := by
      cases ha : m.any (fun p => p.1 = kv.1) with
      | false => rfl
      | true =>
        obtain ⟨q, hq, hq1⟩ := List.any_eq_true.1 ha
        exact absurd (of_decide_eq_true hq1)
          (hfresh kv (List.mem_cons_self _ _) q hq)
    have hins : dictInsert m kv.1 kv.2 = m ++ [kv] := by
      unfold dictInsert
      rw [hkm]
      simp
    have hstep : (kv :: rest).foldl (fun m kv => dictInsert m kv.1 kv.2) m
        = rest.foldl (fun m kv => dictInsert m kv.1 kv.2) (m ++ [kv]) := by
      simp [List.foldl_cons, hins]
    rw [hstep, ih (m ++ [kv]) ?_ hndrest]
    · simp
    · intro g hg q hq
      rcases List.mem_append.1 hq with hq2 | hq2
      · exact hfresh g (List.mem_cons_of_mem _ hg) q hq2
      · have hqkv : q = kv := by simpa using hq2
        subst hqkv
        intro heq
        exact hknotin (heq ▸ List.mem_map_of_mem Prod.fst hg)

/-- An annotated field's annotation is smaller than the field list. -/
theorem sizeOf_annot_lt
    (fs : List (String × Option String × Option String × Option PyType))
    (f : String × Option String × Option String × Option PyType)
    (hf : f ∈ fs) (t : PyType) (ht : f.2.2.2 = some t) : sizeOf t < sizeOf fs := by
  have h1 := List.sizeOf_lt_of_mem hf
  obtain ⟨a, b, c, ant⟩ := f
  simp only at ht
  subst ht
  simp only [Prod.mk.sizeOf_spec, Option.some.sizeOf_spec] at h1
  omega

/-- The list form of the invariant is the conjunction over the list. -/
theorem noSingletonUnionList_iff (ns : List Node) :
    noSingletonUnionList ns = true ↔ ∀ n ∈ ns, noSingletonUnion n = true := by
  induction ns with
  | nil => simp [noSingletonUnionList]
  | cons n rest ih => simp [noSingletonUnionList, ih]

/-- The properties form of the invariant is the conjunction over the values. -/
theorem noSingletonUnionProps_iff (ps : List (String × Node)) :
    noSingletonUnionProps ps = true ↔ ∀ p ∈ ps, noSingletonUnion p.2 = true := by
  induction ps with
  | nil => simp [noSingletonUnionProps]
  | cons p rest ih =>
    obtain ⟨k, n⟩ := p
    simp [noSingletonUnionProps, ih]

/-- The introspector writes the caller-supplied alias and description into
the produced node unchanged (on every shape: the union branch passes them
through its single-member recursion). -/
theorem mapToType_ok_alias_descr (t : PyType) (al d : Option String) (o : Bool)
    (n : Node) (hok : mapToType t al d o = .ok n) :
    nodeAlias n = al ∧ nodeDescription n = d := by
  have main : ∀ (k : Nat) (t : PyType), sizeOf t ≤ k →
      ∀ (al d : Option String) (o : Bool) (n : Node),
      mapToType t al d o = .ok n → nodeAlias n = al ∧ nodeDescription n = d := by
    intro k
    induction k using Nat.strong_induction_on with
    | _ k ih =>
      intro t hk al d o n hok
      cases t with
      | noneT => rw [mapToType_noneT] at hok; cases hok
      | prim p => rw [mapToType_prim] at hok; cases hok; exact ⟨rfl, rfl⟩
      | union args =>
        rcases hf : args.filter (fun a => !isNoneT a) with _ | ⟨a, rest⟩
        · rw [mapToType_union_multi _ _ _ _ (by simp [hf])] at hok
          split at hok
          · cases hok
          · cases hok; exact ⟨rfl, rfl⟩
        · rcases rest with _ | ⟨b, r⟩
          · rw [mapToType_union_single _ _ _ _ _ hf] at hok
            have hmem : a ∈ args :=
              (List.mem_filter.1 (by rw [hf]; exact List.mem_singleton_self a)).1
            have hlt : sizeOf a < sizeOf (PyType.union args) := by
              have := List.sizeOf_lt_of_mem hmem
              simp only [PyType.union.sizeOf_spec]
              omega
            exact ih (sizeOf a) (by omega) a (le_refl _) al d _ n hok
          · rw [mapToType_union_multi _ _ _ _ (by simp [hf])] at hok
            split at hok
            · cases hok
            · cases hok; exact ⟨rfl, rfl⟩
      | listOf args =>
        rcases args with _ | ⟨a, rest⟩
        · rw [mapToType_listOf_bad _ _ _ _ (by intro x hx; cases hx)] at hok
          cases hok
        · rcases rest with _ | ⟨b, r⟩
          · rw [mapToType_listOf_single] at hok
            split at hok
            · cases hok
            · cases hok; exact ⟨rfl, rfl⟩
          · rw [mapToType_listOf_bad _ _ _ _ (by intro x hx; cases hx)] at hok
            cases hok
      | enumT nm members => rw [mapToType_enumT] at hok; cases hok; exact ⟨rfl, rfl⟩
      | model nm fields =>
        rw [mapToType_model] at hok
        split at hok
        · cases hok
        · cases hok; exact ⟨rfl, rfl⟩
      | otherClass nm => rw [mapToType_otherClass] at hok; cases hok
  exact main (sizeOf t) t (le_refl _) al d o n hok

/-- Claim C8's engine: every node a derivation returns satisfies the
no-singleton-union invariant, for arbitrary (even non-well-formed)
annotations — the single-member check of the union branch is exactly the
guard that prevents one-child `Union` nodes. -/
theorem mapToType_ok_noSingletonUnion (t : PyType) (al d : Option String)
    (o : Bool) (n : Node) (hok : mapToType t al d o = .ok n) :
    noSingletonUnion n = true := by
  have main : ∀ (k : Nat) (t : PyType), sizeOf t ≤ k →
      ∀ (al d : Option String) (o : Bool) (n : Node),
      mapToType t al d o = .ok n → noSingletonUnion n = true := by
    intro k
    induction k using Nat.strong_induction_on with
    | _ k ih =>
      intro t hk al d o n hok
      cases t with
      | noneT => rw [mapToType_noneT] at hok; cases hok
      | prim p => rw [mapToType_prim] at hok; cases hok; rfl
      | union args =>
        have hargs : ∀ a ∈ args, sizeOf a < sizeOf (PyType.union args) := by
          intro a ha
          have := List.sizeOf_lt_of_mem ha
          simp only [PyType.union.sizeOf_spec]
          omega
        rcases hf : args.filter (fun a => !isNoneT a) with _ | ⟨a, rest⟩
        · rw [mapToType_union_multi _ _ _ _ (by simp [hf]), hf] at hok
          simp only [mapTypes] at hok
          cases hok
          rfl
        · rcases rest with _ | ⟨b, r⟩
          · rw [mapToType_union_single _ _ _ _ _ hf] at hok
            have hmem : a ∈ args :=
              (List.mem_filter.1 (by rw [hf]; exact List.mem_singleton_self a)).1
            exact ih (sizeOf a) (by have := hargs a hmem; omega) a (le_refl _)
              al d _ n hok
          · rw [mapToType_union_multi _ _ _ _ (by simp [hf]), hf] at hok
            split at hok
            · cases hok
            · next ts hts =>
              cases hok
              obtain ⟨hlen, hmem⟩ := mapTypes_ok _ _ hts
              have h1 : noSingletonUnion (.unionN al d (args.any isNoneT) ts)
                  = (decide (ts.length ≠ 1) && noSingletonUnionList ts) := rfl
              rw [h1]
              have h2 : ts.length ≠ 1 := by
                rw [hlen]
                simp
              have h3 : noSingletonUnionList ts = true := by
                rw [noSingletonUnionList_iff]
                intro m hm
                obtain ⟨x, hx, hxok⟩ := hmem m hm
                have hxargs : x ∈ args := by
                  have : x ∈ args.filter (fun a => !isNoneT a) := by
                    rw [hf]; exact hx
                  exact (List.mem_filter.1 this).1
                exact ih (sizeOf x) (by have := hargs x hxargs; omega) x
                  (le_refl _) none none false m hxok
              simp [h2, h3]
      | listOf args =>
        rcases args with _ | ⟨a, rest⟩
        · rw [mapToType_listOf_bad _ _ _ _ (by intro x hx; cases hx)] at hok
          cases hok
        · rcases rest with _ | ⟨b, r⟩
          · rw [mapToType_listOf_single] at hok
            split at hok
            · cases hok
            · next item hitem =>
              cases hok
              have hlt : sizeOf a < sizeOf (PyType.listOf [a]) := by
                simp only [PyType.listOf.sizeOf_spec, List.cons.sizeOf_spec,
                  List.nil.sizeOf_spec]
                omega
              have := ih (sizeOf a) (by omega) a (le_refl _) none none false
                item hitem
              simpa [noSingletonUnion] using this
          · rw [mapToType_listOf_bad _ _ _ _ (by intro x hx; cases hx)] at hok
            cases hok
      | enumT nm members => rw [mapToType_enumT] at hok; cases hok; rfl
      | model nm fields =>
        rw [mapToType_model] at hok
        split at hok
        · cases hok
        · next kvs hkvs =>
          cases hok
          have h1 : noSingletonUnion (.object al d o (dictOf kvs))
              = noSingletonUnionProps (dictOf kvs) := rfl
          rw [h1, noSingletonUnionProps_iff]
          intro p hp
          have hpkvs : p ∈ kvs := dictOf_mem kvs p hp
          obtain ⟨f, hf, tf, htf, _, hval⟩ := mapFields_ok_mem fields kvs hkvs p hpkvs
          have hlt1 : sizeOf tf < sizeOf fields := sizeOf_annot_lt fields f hf tf htf
          have hlt2 : sizeOf fields < sizeOf (PyType.model nm fields) := by
            simp only [PyType.model.sizeOf_spec]
            omega
          exact ih (sizeOf tf) (by omega) tf (le_refl _) (some f.1) f.2.2.1 false
            p.2 hval
      | otherClass nm => rw [mapToType_otherClass] at hok; cases hok
  exact main (sizeOf t) t (le_refl _) al d o n hok

/-- C1: For every type `T` and any alias/description, deriving the union of
`T` and the null marker (`T | None`) returns the same result as deriving `T`
alone with that alias/description, except that the node's optional flag is
true; no `Union` wrapper is introduced.  (`T` ranges over annotations
satisfying CPython's union representation invariant `wfB`; `T | None` is the
annotation CPython builds for the union, with flattening and
deduplication.) -/
theorem union_with_none_is_optional_of (T : PyType) (al d : Option String)
    (hwf : wfB T = true) :
    mapToType (pyUnionWithNone T) al d false
      = exceptMap (setOptional true) (mapToType T al d false) := by
  have hgen : ∀ S : PyType, isUnionT S = false → isNoneT S = false →
      mapToType (.union [S, .noneT]) al d false
        = exceptMap (setOptional true) (mapToType S al d false) := by
    intro S hu hn
    have hf : [S, .noneT].filter (fun x => !isNoneT x) = [S] := by
      simp [List.filter_cons, hn, isNoneT_noneT]
    rw [mapToType_union_single _ _ _ _ _ hf,
      exceptMap_setOptional_nonunion S al d false true hu]
    have hany : ([S, .noneT].any isNoneT) = true := by
      simp [List.any_cons, isNoneT_noneT]
    rw [hany]
  cases T with
  | noneT =>
    show mapToType .noneT al d false = _
    rw [mapToType_noneT]
    rfl
  | prim p => exact hgen (.prim p) rfl rfl
  | listOf args => exact hgen (.listOf args) rfl rfl
  | enumT nm members => exact hgen (.enumT nm members) rfl rfl
  | model nm fields => exact hgen (.model nm fields) rfl rfl
  | otherClass nm => exact hgen (.otherClass nm) rfl rfl
  | union ts =>
    have hwf' : wfB (.union ts) = true := hwf
    rw [wfB] at hwf'
    simp only [Bool.and_eq_true, decide_eq_true_eq, List.all_eq_true] at hwf'
    obtain ⟨⟨hlen, hnu⟩, hwl⟩ := hwf'
    by_cases hno : ts.any isNoneT = true
    · have hpy : pyUnionWithNone (.union ts) = .union ts := by
        simp [pyUnionWithNone, hno]
      rw [hpy]
      rcases hF : ts.filter (fun x => !isNoneT x) with _ | ⟨a, rest⟩
      · rw [mapToType_union_multi _ _ _ _ (by simp [hF])]
        rcases h2 : mapTypes (ts.filter (fun x => !isNoneT x)) with e | ns
        · simp [exceptMap]
        · simp [exceptMap, setOptional, hno]
      · rcases rest with _ | ⟨b, r⟩
        · rw [mapToType_union_single _ _ _ _ _ hF]
          have hmem : a ∈ ts :=
            (List.mem_filter.1 (by rw [hF]; exact List.mem_singleton_self a)).1
          have hu : isUnionT a = false := by
            have := hnu a hmem
            cases ha : isUnionT a
            · rfl
            · rw [ha] at this; cases this
          rw [exceptMap_setOptional_nonunion a al d (ts.any isNoneT) true hu, hno]
        · rw [mapToType_union_multi _ _ _ _ (by simp [hF])]
          rcases h2 : mapTypes (ts.filter (fun x => !isNoneT x)) with e | ns
          · simp [exceptMap]
          · simp [exceptMap, setOptional, hno]
    · have hno' : ts.any isNoneT = false := by
        cases h : ts.any isNoneT
        · rfl
        · exact absurd h hno
      have hpy : pyUnionWithNone (.union ts) = .union (ts ++ [PyType.noneT]) := by
        simp [pyUnionWithNone, hno']
      have hfe : ts.filter (fun x => !isNoneT x) = ts := by
        apply List.filter_eq_self.2
        intro a ha
        have : isNoneT a = false := by
          cases h : isNoneT a
          · rfl
          · exact absurd (List.any_eq_true.2 ⟨a, ha, h⟩) hno
        simp [this]
      have hfe' : (ts ++ [PyType.noneT]).filter (fun x => !isNoneT x) = ts := by
        rw [List.filter_append, hfe]
        simp [isNoneT_noneT]
      have hne : ∀ x, ts ≠ [x] := by
        intro x hx
        rw [hx] at hlen
        simp at hlen
      rw [hpy, mapToType_union_multi _ _ _ _ (by rw [hfe']; exact hne),
        mapToType_union_multi _ _ _ _ (by rw [hfe]; exact hne), hfe, hfe']
      have hany2 : (ts ++ [PyType.noneT]).any isNoneT = true := by
        simp [List.any_append, isNoneT_noneT]
      rcases h2 : mapTypes ts with e | ns
      · simp [exceptMap]
      · simp [exceptMap, setOptional, hany2, hno']

/-- Witness for C1 at `T = int`, alias `"a"`, description `"d"`: deriving
`int | None` equals forcing `optional = true` on the derivation of `int`. -/
theorem union_with_none_is_optional_of_witness :
    wfB (.prim .int) = true ∧
    mapToType (pyUnionWithNone (.prim .int)) (some "a") (some "d") false
      = exceptMap (setOptional true)
          (mapToType (.prim .int) (some "a") (some "d") false) :=
  ⟨rfl, union_with_none_is_optional_of (.prim .int) (some "a") (some "d") rfl⟩

/-- C8: In every schema tree produced by derivation, no `Union` node has
exactly one child: single-member unions (after removal of a null member)
are unwrapped to the derivation of their sole member. -/
theorem no_union_node_has_one_child (t : PyType) (al d : Option String)
    (o : Bool) (n : Node) (hok : mapToType t al d o = .ok n) :
    noSingletonUnion n = true :=
  mapToType_ok_noSingletonUnion t al d o n hok

/-- Witness for C8 at `int | str`: a two-child union tree satisfying the
invariant. -/
theorem no_union_node_has_one_child_witness :
    mapToType (.union [.prim .int, .prim .str]) none none false
      = .ok (.unionN none none false
          [.primitive none none false .int, .primitive none none false .str])
    ∧ noSingletonUnion (.unionN none none false
        [.primitive none none false .int, .primitive none none false .str]) = true := by
  have h1 : mapToType (.union [.prim .int, .prim .str]) none none false
      = .ok (.unionN none none false
          [.primitive none none false .int, .primitive none none false .str]) := by
    simp [mapToType_union_eq, mapToType_prim, mapTypes, isNoneT,
      List.filter_cons, List.filter_nil]
  exact ⟨h1, no_union_node_has_one_child _ _ _ _ _ h1⟩

/-- C2: Every type description matching none of the recognized shapes —
union, single-element-parameter list, catalog primitive, enumeration,
structured type — including a sequence type with zero or several
element-type parameters, makes derivation fail with an error naming the
offending type; no node is ever returned for it. -/
theorem unsupported_types_fail_naming_type (t : PyType) (al d : Option String)
    (o : Bool) (h : recognizedShape t = false) :
    mapToType t al d o = .error ("KaiwaDB does not support " ++ pyName t) := by
  cases t with
  | noneT => exact mapToType_noneT al d o
  | prim p => simp [recognizedShape] at h
  | union args => simp [recognizedShape] at h
  | listOf args =>
    simp only [recognizedShape, decide_eq_false_iff_not] at h
    apply mapToType_listOf_bad
    intro a ha
    rw [ha] at h
    simp at h
  | enumT nm members => simp [recognizedShape] at h
  | model nm fields => simp [recognizedShape] at h
  | otherClass nm => exact mapToType_otherClass nm al d o

/-- Witness for C2 at the plain class `dict` and at the two-parameter
sequence `list[int, str]`. -/
theorem unsupported_types_fail_naming_type_witness :
    recognizedShape (.otherClass "dict") = false ∧
    mapToType (.otherClass "dict") none none false
      = .error ("KaiwaDB does not support " ++ pyName (.otherClass "dict")) ∧
    recognizedShape (.listOf [.prim .int, .prim .str]) = false ∧
    mapToType (.listOf [.prim .int, .prim .str]) none none false
      = .error ("KaiwaDB does not support "
          ++ pyName (.listOf [.prim .int, .prim .str])) :=
  ⟨rfl, unsupported_types_fail_naming_type _ none none false rfl,
   rfl, unsupported_types_fail_naming_type _ none none false rfl⟩

/-- C7: An enumeration derives to an `Enum` node named after it, with one
variant per member in declaration order, each variant's value the member's
literal value and its alias the symbolic member name exactly when that name
differs from the literal value, else absent (`specEnumVariants` states this
as the claim words it). -/
theorem enum_derives_to_spec_variants (nm : String)
    (members : List (String × String)) (al d : Option String) (o : Bool) :
    mapToType (.enumT nm members) al d o
      = .ok (.enumN al d o nm (specEnumVariants members))
    ∧ (specEnumVariants members).length = members.length := by
  constructor
  · rw [mapToType_enumT]
    have : (members.map (fun m =>
        (⟨m.2, if m.1 ≠ m.2 then some m.1 else none⟩ : Variant)))
        = specEnumVariants members := by
      unfold specEnumVariants
      apply List.map_congr_left
      intro m _
      by_cases hmv : m.1 = m.2
      · simp [hmv]
      · simp [hmv]
    rw [this]
  · simp [specEnumVariants]

/-- C10: For a union annotation with no null member, a direct call of the
introspector with `optional = true` still yields a node whose optional flag
is false: the caller-supplied flag is discarded and recomputed from the
presence of a null member alone. -/
theorem union_discards_caller_optional (args : List PyType)
    (al d : Option String) (n : Node)
    (hwf : wfB (.union args) = true)
    (hnone : args.any isNoneT = false)
    (hok : mapToType (.union args) al d true = .ok n) :
    nodeOptional n = false := by
  rw [wfB] at hwf
  simp only [Bool.and_eq_true, decide_eq_true_eq, List.all_eq_true] at hwf
  obtain ⟨⟨hlen, hnu⟩, hwl⟩ := hwf
  have hfe : args.filter (fun x => !isNoneT x) = args := by
    apply List.filter_eq_self.2
    intro a ha
    have : isNoneT a = false := by
      cases h : isNoneT a
      · rfl
      · exact absurd (List.any_eq_true.2 ⟨a, ha, h⟩) (by rw [hnone]; simp)
    simp [this]
  have hne : ∀ x, args.filter (fun y => !isNoneT y) ≠ [x] := by
    intro x hx
    rw [hfe] at hx
    rw [hx] at hlen
    simp at hlen
  rw [mapToType_union_multi _ _ _ _ hne] at hok
  split at hok
  · cases hok
  · cases hok
    show args.any isNoneT = false
    exact hnone

/-- Witness for C10 at `Union[int, str]` called with `optional = true`. -/
theorem union_discards_caller_optional_witness :
    wfB (.union [.prim .int, .prim .str]) = true ∧
    [PyType.prim .int, PyType.prim .str].any isNoneT = false ∧
    mapToType (.union [.prim .int, .prim .str]) none none true
      = .ok (.unionN none none false
          [.primitive none none false .int, .primitive none none false .str]) ∧
    nodeOptional (.unionN none none false
      [.primitive none none false .int, .primitive none none false .str]) = false := by
  have h1 : mapToType (.union [.prim .int, .prim .str]) none none true
      = .ok (.unionN none none false
          [.primitive none none false .int, .primitive none none false .str]) := by
    simp [mapToType_union_eq, mapToType_prim, mapTypes, isNoneT,
      List.filter_cons, List.filter_nil]
  exact ⟨rfl, rfl, h1,
    union_discards_caller_optional [.prim .int, .prim .str] none none _ rfl rfl h1⟩

/-- C4: A union of at least two distinct non-null member types (with or
without a null member) derives to a `Union` node whose child count equals
the number of distinct non-null members, each child carrying no alias, no
description and `optional = false` of its own, and whose optional flag is
true iff a null member was present. -/
theorem union_node_children_structure (args : List PyType)
    (al d : Option String) (o : Bool) (n : Node)
    (hwf : wfB (.union args) = true)
    (hdistinct : args.Pairwise (· ≠ ·))
    (h2 : 2 ≤ (args.filter (fun x => !isNoneT x)).length)
    (hok : mapToType (.union args) al d o = .ok n) :
    ∃ children, n = .unionN al d (args.any isNoneT) children ∧
      children.length = (args.filter (fun x => !isNoneT x)).length ∧
      ∀ c ∈ children, nodeAlias c = none ∧ nodeDescription c = none ∧
        nodeOptional c = false := by
  rw [wfB] at hwf
  simp only [Bool.and_eq_true, decide_eq_true_eq, List.all_eq_true] at hwf
  obtain ⟨⟨hlen, hnu⟩, hwl⟩ := hwf
  have hne : ∀ x, args.filter (fun y => !isNoneT y) ≠ [x] := by
    intro x hx
    rw [hx] at h2
    simp at h2
  rw [mapToType_union_multi _ _ _ _ hne] at hok
  split at hok
  · cases hok
  · next ts hts =>
    cases hok
    obtain ⟨hl, hmem⟩ := mapTypes_ok _ _ hts
    refine ⟨ts, rfl, hl, ?_⟩
    intro c hc
    obtain ⟨a, ha, haok⟩ := hmem c hc
    have haargs : a ∈ args := (List.mem_filter.1 ha).1
    have hau : isUnionT a = false := by
      have := hnu a haargs
      cases h : isUnionT a
      · rfl
      · rw [h] at this; cases this
    obtain ⟨hal, hdescr⟩ := mapToType_ok_alias_descr a none none false c haok
    exact ⟨hal, hdescr, mapToType_ok_optional_nonunion a none none false c hau haok⟩

/-- Witness for C4 at `Union[int, str, None]`: two children, optional true. -/
theorem union_node_children_structure_witness :
    wfB (.union [.prim .int, .prim .str, .noneT]) = true ∧
    [PyType.prim .int, PyType.prim .str, PyType.noneT].Pairwise (· ≠ ·) ∧
    2 ≤ ([PyType.prim .int, PyType.prim .str, PyType.noneT].filter
      (fun x => !isNoneT x)).length ∧
    mapToType (.union [.prim .int, .prim .str, .noneT]) none none false
      = .ok (.unionN none none true
          [.primitive none none false .int, .primitive none none false .str]) ∧
    ∃ children,
      (Node.unionN none none true
        [.primitive none none false .int, .primitive none none false .str])
        = .unionN none none
            ([PyType.prim .int, PyType.prim .str, PyType.noneT].any isNoneT)
            children ∧
      children.length = ([PyType.prim .int, PyType.prim .str, PyType.noneT].filter
        (fun x => !isNoneT x)).length ∧
      ∀ c ∈ children, nodeAlias c = none ∧ nodeDescription c = none ∧
        nodeOptional c = false := by
  have hd : [PyType.prim .int, PyType.prim .str, PyType.noneT].Pairwise (· ≠ ·) := by
    simp
  have h1 : mapToType (.union [.prim .int, .prim .str, .noneT]) none none false
      = .ok (.unionN none none true
          [.primitive none none false .int, .primitive none none false .str]) := by
    simp [mapToType_union_eq, mapToType_prim, mapTypes, isNoneT,
      List.filter_cons, List.filter_nil]
  exact ⟨rfl, hd, by decide, h1,
    union_node_children_structure _ none none false _ rfl hd (by decide) h1⟩

/-- When a declared name is present and non-empty, the Python truthiness
fallback is plain option-defaulting. -/
theorem pyOr_getD (x : Option String) (y : String) (h : x ≠ some "") :
    pyOr x y = x.getD y := by
  cases x with
  | none => rfl
  | some s =>
    have hs : s ≠ "" := by
      intro hs
      exact h (by rw [hs])
    simp [pyOr, hs]

/-- A successful model derivation always returns an object node carrying the
call's alias, description and optional flag. -/
theorem mapToType_model_shape (nm : String)
    (fs : List (String × Option String × Option String × Option PyType))
    (al d : Option String) (o : Bool) (n : Node)
    (hok : mapToType (.model nm fs) al d o = .ok n) :
    ∃ props, n = .object al d o props := by
  rw [mapToType_model] at hok
  split at hok
  · cases hok
  · cases hok
    exact ⟨_, rfl⟩

/-- Mapping both sides of a pointwise correspondence with functions that
agree on related elements yields equal lists. -/
theorem forall₂_map_eq {α β γ : Type} (R : α → β → Prop) (f : α → γ) (g : β → γ)
    (l₁ : List α) (l₂ : List β) (h : List.Forall₂ R l₁ l₂)
    (hfg : ∀ a ∈ l₁, ∀ b, R a b → f a = g b) : l₁.map f = l₂.map g := by
  induction h with
  | nil => rfl
  | @cons a b as bs hab htl ih =>
    simp only [List.map_cons]
    rw [hfg a (List.mem_cons_self a as) b hab]
    rw [ih (fun x hx b' hb' => hfg x (List.mem_cons_of_mem a hx) b' hb')]

/-- Weaken a pointwise correspondence using membership on the left. -/
theorem forall₂_imp_mem {α β : Type} (R R' : α → β → Prop)
    (l₁ : List α) (l₂ : List β) (h : List.Forall₂ R l₁ l₂)
    (himp : ∀ a ∈ l₁, ∀ b, R a b → R' a b) : List.Forall₂ R' l₁ l₂ := by
  induction h with
  | nil => exact List.Forall₂.nil
  | @cons a b as bs hab htl ih =>
    exact List.Forall₂.cons (himp a (List.mem_cons_self a as) b hab)
      (ih (fun x hx b' hb' => himp x (List.mem_cons_of_mem a hx) b' hb'))

/-- C3 (counterexample): a field declared `product_id` with explicit alias
`"id"` derives to a child node whose alias attribute is the declared name
`product_id`, not the rename `"id"` (the rename only becomes the properties
key). -/
theorem child_alias_is_not_rename_counterexample :
    mapToType (.model "M" [("product_id", some "id", none, some (.prim .int))])
        none none false
      = .ok (.object none none false
          [("id", .primitive (some "product_id") none false .int)])
    ∧ nodeAlias (.primitive (some "product_id") none false .int)
        = some "product_id"
    ∧ (some "product_id" : Option String) ≠ some "id" := by
  refine ⟨?_, rfl, by decide⟩
  simp [mapToType_model, mapFields, mapToType_prim, pyOr, dictOf, dictInsert]

/-- C3 (amended): when deriving a structured type's object node, each
annotated field's type is recursively derived with the field's *declared
name* as alias (not its rename) and the field's description, so every
child node's alias attribute equals the declared field name; the rename,
when present, is used only as the properties key. -/
theorem object_children_carry_declared_name_alias (nm : String)
    (fields : List (String × Option String × Option String × Option PyType))
    (al d : Option String) (o : Bool) (n : Node)
    (hok : mapToType (.model nm fields) al d o = .ok n) :
    ∀ f ∈ fields, ∀ t, f.2.2.2 = some t →
      ∃ child, mapToType t (some f.1) f.2.2.1 false = .ok child ∧
        nodeAlias child = some f.1 := by
  rw [mapToType_model] at hok
  split at hok
  · cases hok
  · next kvs hkvs =>
    intro f hf t ht
    obtain ⟨child, hchild⟩ := mapFields_ok_forall fields kvs hkvs f hf t ht
    exact ⟨child, hchild,
      (mapToType_ok_alias_descr t (some f.1) f.2.2.1 false child hchild).1⟩

/-- Witness for the amended C3 at the counterexample's model: the child
derived for field `product_id` (aliased `"id"`) carries alias
`product_id`. -/
theorem object_children_carry_declared_name_alias_witness :
    mapToType (.model "M" [("product_id", some "id", none, some (.prim .int))])
        none none false
      = .ok (.object none none false
          [("id", .primitive (some "product_id") none false .int)])
    ∧ ∃ child, mapToType (.prim .int) (some "product_id") none false = .ok child ∧
        nodeAlias child = some "product_id" := by
  have h1 : mapToType
      (.model "M" [("product_id", some "id", none, some (.prim .int))])
        none none false
      = .ok (.object none none false
          [("id", .primitive (some "product_id") none false .int)]) := by
    simp [mapToType_model, mapFields, mapToType_prim, pyOr, dictOf, dictInsert]
  exact ⟨h1, object_children_carry_declared_name_alias "M" _ none none false _ h1
    ("product_id", some "id", none, some (.prim .int))
    (List.mem_singleton_self _) (.prim .int) rfl⟩

/-- C9: two declared fields resolving to the same properties key do not make
derivation fail; the mapping keeps a single entry under that key holding the
later field's derived node — the earlier field's node is silently lost. -/
theorem duplicate_keys_keep_later_field (nm n1 n2 : String)
    (a1 a2 : Option String) (d1 d2 : Option String) (t1 t2 : PyType)
    (al d : Option String) (o : Bool) (v1 v2 : Node)
    (hk : pyOr a1 n1 = pyOr a2 n2)
    (h1 : mapToType t1 (some n1) d1 false = .ok v1)
    (h2 : mapToType t2 (some n2) d2 false = .ok v2) :
    mapToType (.model nm [(n1, a1, d1, some t1), (n2, a2, d2, some t2)]) al d o
      = .ok (.object al d o [(pyOr a1 n1, v2)]) := by
  rw [mapToType_model]
  have hmf : mapFields [(n1, a1, d1, some t1), (n2, a2, d2, some t2)]
      = .ok [(pyOr a1 n1, v1), (pyOr a2 n2, v2)] := by
    simp [mapFields, h1, h2]
  simp only [hmf]
  have hd : dictOf [(pyOr a1 n1, v1), (pyOr a2 n2, v2)] = [(pyOr a1 n1, v2)] := by
    simp [dictOf, dictInsert, ← hk]
  rw [hd]

/-- Witness for C9: fields `a : int` and `b : str` aliased to `"a"` collide
on key `"a"`; only the later `str` node remains. -/
theorem duplicate_keys_keep_later_field_witness :
    pyOr none "a" = pyOr (some "a") "b" ∧
    mapToType (.model "M" [("a", none, none, some (.prim .int)),
        ("b", some "a", none, some (.prim .str))]) none none false
      = .ok (.object none none false
          [("a", .primitive (some "b") none false .str)]) := by
  have h := duplicate_keys_keep_later_field "M" "a" "b" none (some "a") none none
    (.prim .int) (.prim .str) none none false
    (.primitive (some "a") none false .int) (.primitive (some "b") none false .str)
    rfl (mapToType_prim .int (some "a") none false)
    (mapToType_prim .str (some "b") none false)
  exact ⟨rfl, h⟩

/-- C5: assembling yields exactly one table per document, in input order;
each table's name follows the precedence "declared collection name, else
declared table name, else the type's own name" (declared names being
non-empty when present), its alias is the document type's name, and its
fields are the properties of the document's derived object node. -/
theorem tables_one_per_document (docs : List PyDoc) (tables : List Table)
    (hne : ∀ dd ∈ docs, dd.collection ≠ some "" ∧ dd.table ≠ some "")
    (hok : mapDocumentsToTables docs = .ok tables) :
    tables.length = docs.length ∧
    List.Forall₂ (fun (dd : PyDoc) (t : Table) =>
      t.name = dd.collection.getD (dd.table.getD dd.name) ∧
      t.alias = dd.name ∧
      ∃ props, mapToType dd.asType none none false
          = .ok (.object none none false props) ∧
        t.fields = props) docs tables := by
  suffices h : List.Forall₂ _ docs tables from ⟨h.length_eq.symm, h⟩
  induction docs generalizing tables with
  | nil =>
    simp only [mapDocumentsToTables] at hok
    cases hok
    exact List.Forall₂.nil
  | cons dd ds ih =>
    simp only [mapDocumentsToTables] at hok
    split at hok
    · cases hok
    · next n hn =>
      split at hok
      · cases hok
      · next ts hts =>
        cases hok
        refine List.Forall₂.cons ⟨?_, rfl, ?_⟩
          (ih ts (fun x hx => hne x (List.mem_cons_of_mem _ hx)) hts)
        · obtain ⟨hc, ht⟩ := hne dd (List.mem_cons_self _ _)
          rw [pyOr_getD dd.table dd.name ht, pyOr_getD dd.collection _ hc]
        · obtain ⟨props, hprops⟩ :=
            mapToType_model_shape dd.name dd.fields none none false n hn
          subst hprops
          exact ⟨props, hn, rfl⟩

/-- Witness for C5 with one document declaring collection `"users"`. -/
theorem tables_one_per_document_witness :
    mapDocumentsToTables
        [⟨some "users", none, "User", [("id", none, none, some (.prim .int))]⟩]
      = .ok [⟨"users", "User", [("id", .primitive (some "id") none false .int)]⟩]
    ∧ ([⟨"users", "User",
          [("id", .primitive (some "id") none false .int)]⟩] : List Table).length
        = ([⟨some "users", none, "User",
            [("id", none, none, some (.prim .int))]⟩] : List PyDoc).length
    ∧ List.Forall₂ (fun (dd : PyDoc) (t : Table) =>
        t.name = dd.collection.getD (dd.table.getD dd.name) ∧
        t.alias = dd.name ∧
        ∃ props, mapToType dd.asType none none false
            = .ok (.object none none false props) ∧
          t.fields = props)
        [⟨some "users", none, "User", [("id", none, none, some (.prim .int))]⟩]
        [⟨"users", "User", [("id", .primitive (some "id") none false .int)]⟩] := by
  have h1 : mapDocumentsToTables
        [⟨some "users", none, "User", [("id", none, none, some (.prim .int))]⟩]
      = .ok [⟨"users", "User",
          [("id", .primitive (some "id") none false .int)]⟩] := by
    simp [mapDocumentsToTables, PyDoc.asType, mapToType_model, mapFields,
      mapToType_prim, pyOr, dictOf, dictInsert, nodeProps]
  have h2 := tables_one_per_document
    [⟨some "users", none, "User", [("id", none, none, some (.prim .int))]⟩]
    [⟨"users", "User", [("id", .primitive (some "id") none false .int)]⟩]
    (by intro x hx; rcases List.mem_singleton.1 hx with rfl; exact ⟨by decide, by decide⟩)
    h1
  exact ⟨h1, h2.1, h2.2⟩

/-- C6: a structured type's properties mapping iterates the declared fields
in declaration order, skips every field without an annotation (derivation
still succeeds), and keys each remaining field by its explicit alias when
present (non-empty), else its declared name. -/
theorem object_properties_iterate_annotated_fields (nm : String)
    (fields : List (String × Option String × Option String × Option PyType))
    (al d : Option String) (o : Bool)
    (hs : ∀ f ∈ fields, ∀ t, f.2.2.2 = some t →
      ∃ nd, mapToType t (some f.1) f.2.2.1 false = .ok nd)
    (halias : ∀ f ∈ fields, f.2.1 ≠ some "")
    (hkeys : ((fields.filter (fun f => f.2.2.2.isSome)).map
      (fun f => f.2.1.getD f.1)).Nodup) :
    ∃ props, mapToType (.model nm fields) al d o = .ok (.object al d o props) ∧
      List.Forall₂ (fun f (p : String × Node) =>
        ∃ t, f.2.2.2 = some t ∧ p.1 = f.2.1.getD f.1 ∧
          mapToType t (some f.1) f.2.2.1 false = .ok p.2)
        (fields.filter (fun f => f.2.2.2.isSome)) props := by
  obtain ⟨kvs, hkvs, hrel⟩ := mapFields_forall₂ fields hs
  have hmapeq : (fields.filter (fun f => f.2.2.2.isSome)).map
      (fun f => f.2.1.getD f.1) = kvs.map Prod.fst := by
    apply forall₂_map_eq _ _ _ _ _ hrel
    intro f hf p hrp
    obtain ⟨t, ht, hkey, hok⟩ := hrp
    rw [hkey, pyOr_getD f.2.1 f.1 (halias f (List.mem_filter.1 hf).1)]
  have hkeys' : (kvs.map Prod.fst).Nodup := hmapeq ▸ hkeys
  refine ⟨kvs, ?_, ?_⟩
  · rw [mapToType_model]
    simp only [hkvs]
    rw [dictOf_eq_self kvs hkeys']
  · apply forall₂_imp_mem _ _ _ _ hrel
    intro f hf p hrp
    obtain ⟨t, ht, hkey, hok⟩ := hrp
    exact ⟨t, ht,
      by rw [hkey, pyOr_getD f.2.1 f.1 (halias f (List.mem_filter.1 hf).1)], hok⟩

/-- Witness for C6 on a model with an aliased field, an unannotated field
(skipped) and a plain field. -/
theorem object_properties_iterate_annotated_fields_witness :
    ∃ props, mapToType (.model "M"
        [("a", none, none, some (.prim .int)),
         ("b", some "nm", none, none),
         ("c", some "k", none, some (.prim .str))]) none none false
      = .ok (.object none none false props) ∧
      List.Forall₂ (fun f (p : String × Node) =>
        ∃ t, f.2.2.2 = some t ∧ p.1 = f.2.1.getD f.1 ∧
          mapToType t (some f.1) f.2.2.1 false = .ok p.2)
        ([("a", none, none, some (.prim .int)),
          ("b", some "nm", none, none),
          ("c", some "k", none, some (.prim .str))].filter
            (fun f => f.2.2.2.isSome)) props := by
  apply object_properties_iterate_annotated_fields
  · intro f hf t ht
    rcases List.mem_cons.1 hf with rfl | hf'
    · cases ht
      exact ⟨_, mapToType_prim .int (some "a") none false⟩
    · rcases List.mem_cons.1 hf' with rfl | hf''
      · cases ht
      · rcases List.mem_singleton.1 hf'' with rfl
        cases ht
        exact ⟨_, mapToType_prim .str (some "c") none false⟩
  · intro f hf
    rcases List.mem_cons.1 hf with rfl | hf'
    · decide
    · rcases List.mem_cons.1 hf' with rfl | hf''
      · decide
      · rcases List.mem_singleton.1 hf'' with rfl
        decide
  · decide

end KaiwaDB
